import Mathlib

/-
Verification of the red-black-tree ordered set in src/set.go.

Embedding notes.  A Go `*node[T]` is modelled by the inductive `Tree`:
the nil pointer is `Tree.nil`, a heap node is `Tree.node value color left
right`.  The `parent` back-pointer of the Go code is modelled by a zipper
`Path`: the focused subtree together with a `Path` determines the whole
tree (`Path.fill`), and "x.parent" is the outermost constructor of the
path.  Imperative loops that climb parent pointers become structural
recursion on the path; loops that descend become structural recursion on
the tree.  Every place where the Go code would dereference a nil pointer
is modelled by returning `none`, so a Go runtime panic is exactly a
`none` result.  Sizes use `Int`, mirroring Go's `int`.
-/

set_option linter.unusedSectionVars false

namespace GoSet

inductive Color where
  | red : Color
  | black : Color
deriving DecidableEq

/-- Models `*node[T]` from src/set.go: `nil` is the nil pointer, `node`
carries the `value`, `color`, `left`, `right` fields. -/
inductive Tree (α : Type) where
  | nil : Tree α
  | node (value : α) (color : Color) (left : Tree α) (right : Tree α) : Tree α
deriving DecidableEq

/-- Zipper context: the `parent` chain of a focused subtree.
`leftOf v c sib up` means the focus is the left child of a node with value
`v` and color `c` whose right child is `sib`; symmetrically for `rightOf`. -/
inductive Path (α : Type) where
  | root : Path α
  | leftOf (value : α) (color : Color) (sibling : Tree α) (up : Path α) : Path α
  | rightOf (value : α) (color : Color) (sibling : Tree α) (up : Path α) : Path α
deriving DecidableEq

/-- Models the `Set[T]` struct: `root` pointer and `size` field. -/
structure Set (α : Type) where
  root : Tree α
  size : Int
deriving DecidableEq

variable {α : Type} [LinearOrder α]

/-- Rebuild the whole tree from a focused subtree and its parent chain. -/
def Path.fill : Path α → Tree α → Tree α
  | .root, t => t
  | .leftOf v c sib up, t => Path.fill up (.node v c t sib)
  | .rightOf v c sib up, t => Path.fill up (.node v c sib t)

/-- `New` (src/set.go line 45): the empty set. -/
def New : Set α := ⟨Tree.nil, 0⟩

/-- `Len` (line 50): the `size` field. -/
def Set.Len (s : Set α) : Int := s.size

/-- `Contains` (lines 55-67): descend from the root by comparisons. -/
def contains (x : α) : Tree α → Bool
  | .nil => false
  | .node v _ l r =>
      if x < v then contains x l
      else if x > v then contains x r
      else true

def Set.Contains (s : Set α) (x : α) : Bool := contains x s.root

/-- The descent loop of `Insert` (lines 72-94): walk down recording the
parent chain; `none` means an equal element was found (insert is a no-op),
`some p` is the attachment position of the new node. -/
def bstInsertPath (x : α) : Tree α → Path α → Option (Path α)
  | .nil, p => some p
  | .node v c l r, p =>
      if x < v then bstInsertPath x l (.leftOf v c r p)
      else if x > v then bstInsertPath x r (.rightOf v c l p)
      else none

/-- `insertFixup` (lines 101-138), one loop iteration per call.  The focus
`z` starts at the new node and climbs two levels in the uncle-red case.
`none` models the nil dereference `z.parent.parent` that the Go code would
hit if `z.parent` were a red root (in the recolor case the loop simply
re-tests and exits, which `fill` performs).  Rotations (lines 140-174) are
inlined as the corresponding local restructurings of the zipper. -/
def insertFixup : Tree α → Path α → Option (Tree α)
  | z, .root => some z
  | z, .leftOf pv pc ps up =>
      match pc with
      | .black => some (Path.fill up (.node pv .black z ps))
      | .red =>
        match up with
        | .root => none
        | .leftOf gv _ gs gup =>
            match gs with
            | .node yv .red yl yr =>
                insertFixup (.node gv .red (.node pv .black z ps) (.node yv .black yl yr)) gup
            | _ =>
                some (Path.fill gup (.node pv .black z (.node gv .red ps gs)))
        | .rightOf gv _ gs gup =>
            match gs with
            | .node yv .red yl yr =>
                insertFixup (.node gv .red (.node yv .black yl yr) (.node pv .black z ps)) gup
            | _ =>
                match z with
                | .nil => none
                | .node zv _ zl zr =>
                    some (Path.fill gup (.node zv .black (.node gv .red gs zl) (.node pv .red zr ps)))
  | z, .rightOf pv pc ps up =>
      match pc with
      | .black => some (Path.fill up (.node pv .black ps z))
      | .red =>
        match up with
        | .root => none
        | .rightOf gv _ gs gup =>
            match gs with
            | .node yv .red yl yr =>
                insertFixup (.node gv .red (.node yv .black yl yr) (.node pv .black ps z)) gup
            | _ =>
                some (Path.fill gup (.node pv .black (.node gv .red gs ps) z))
        | .leftOf gv _ gs gup =>
            match gs with
            | .node yv .red yl yr =>
                insertFixup (.node gv .red (.node pv .black ps z) (.node yv .black yl yr)) gup
            | _ =>
                match z with
                | .nil => none
                | .node zv _ zl zr =>
                    some (Path.fill gup (.node zv .black (.node pv .red ps zl) (.node gv .red zr gs)))

/-- Models `s.root.color = black` (line 137) and the guarded color writes. -/
def setBlack : Tree α → Tree α
  | .nil => .nil
  | .node v _ l r => .node v .black l r

/-- `Insert` (lines 70-98): descend, attach a red node, fix up, then force
the root black; no-op when the value is present. -/
def Set.Insert (s : Set α) (x : α) : Option (Set α) :=
  match bstInsertPath x s.root .root with
  | none => some s
  | some p =>
      match insertFixup (.node x .red .nil .nil) p with
      | none => none
      | some t => some ⟨setBlack t, s.size + 1⟩

/-- The search loop of `Remove` (lines 177-189): locate the node holding
`x` together with its parent chain; `none` when absent (Remove no-op). -/
def bstFindPath (x : α) : Tree α → Path α → Option (Tree α × Path α)
  | .nil, _ => none
  | .node v c l r, p =>
      if x < v then bstFindPath x l (.leftOf v c r p)
      else if x > v then bstFindPath x r (.rightOf v c l p)
      else some (.node v c l r, p)

/-- The successor extraction of `deleteNode` (lines 203-215): `minNode`
on the right subtree, then splice the successor `y` out, replacing it by
its right child `x` (`rbTransplant(y, y.right)`).  Returns `y`'s value
and original color, `x`, and the left-spine entries (value, color, right
sibling) sitting between `x`'s new position and the top of the subtree,
nearest first.  Covers the `y.parent == z` branch as the empty-spine
case. -/
def minSplice : Tree α → Option (α × Color × Tree α × List (α × Color × Tree α))
  | .nil => none
  | .node v c .nil r => some (v, c, r, [])
  | .node v c (.node lv lc ll lr) r =>
      match minSplice (.node lv lc ll lr) with
      | none => none
      | some (yv, yc, x, sp) => some (yv, yc, x, sp ++ [(v, c, r)])

/-- Rebuild the subtree from the spliced position and the spine entries. -/
def rebuildL : List (α × Color × Tree α) → Tree α → Tree α
  | [], t => t
  | (v, c, r) :: sp, t => rebuildL sp (.node v c t r)

/-- Extend a path by left-spine entries (nearest first). -/
def extendL : List (α × Color × Tree α) → Path α → Path α
  | [], q => q
  | (v, c, r) :: sp, q => Path.leftOf v c r (extendL sp q)

/-- The Go tests `w.left == nil || w.left.color == black` (lines 252, 256,
280, 284). -/
def isBlackOrNil : Tree α → Bool
  | .nil => true
  | .node _ .black _ _ => true
  | .node _ .red _ _ => false

/-- Terminating tail of a `deleteFixup` iteration, x a left child (lines
256-270): optional inner right-rotation of the sibling, recolor, left
rotation at the parent, then `x = s.root` ends the loop and the final
`x.color = black` (line 302) blackens the root.  Arguments: focus `x`,
parent value `pv` and current parent color `pcur`, the sibling's fields,
and the parent's position `q`.  `none` models `rightRotate(w)`
dereferencing a nil `w.left`. -/
def dfRestL (x : Tree α) (pv : α) (pcur : Color) (wv : α) (wl wr : Tree α)
    (q : Path α) : Option (Tree α) :=
  if isBlackOrNil wr then
    match wl with
    | .nil => none
    | .node av _ al ar =>
        some (setBlack (Path.fill q
          (.node av pcur (.node pv .black x al) (.node wv .black ar wr))))
  else
    match wr with
    | .nil => none
    | .node bv _ bl br =>
        some (setBlack (Path.fill q
          (.node wv pcur (.node pv .black x wl) (.node bv .black bl br))))

/-- Mirror of `dfRestL` for a right-child focus (lines 284-298). -/
def dfRestR (x : Tree α) (pv : α) (pcur : Color) (wv : α) (wl wr : Tree α)
    (q : Path α) : Option (Tree α) :=
  if isBlackOrNil wl then
    match wr with
    | .nil => none
    | .node bv _ bl br =>
        some (setBlack (Path.fill q
          (.node bv pcur (.node wv .black wl bl) (.node pv .black br x))))
  else
    match wl with
    | .nil => none
    | .node av _ al ar =>
        some (setBlack (Path.fill q
          (.node wv pcur (.node av .black al ar) (.node pv .black wr x))))

/-- `deleteFixup` (lines 242-303), one loop iteration per call.  The loop
exits when the focus is the root or red; the trailing `x.color = black`
is applied at every exit.  A red sibling triggers the pre-rotation (lines
246-251 / 274-279) after which the parent is red, so a subsequent climb
(`x = x.parent`) exits the loop immediately and blackens the parent;
both sub-cases are therefore written out directly.  `none` models the
nil dereferences `w.color` / `w.left` / `w.right` when the (re-read)
sibling `w` is nil. -/
def deleteFixup : Tree α → Path α → Option (Tree α)
  | .nil, _ => none
  | .node xv xc xl xr, .root => some (setBlack (.node xv xc xl xr))
  | .node xv .red xl xr, .leftOf pv pc w up =>
      some (Path.fill (.leftOf pv pc w up) (.node xv .black xl xr))
  | .node xv .red xl xr, .rightOf pv pc w up =>
      some (Path.fill (.rightOf pv pc w up) (.node xv .black xl xr))
  | .node xv .black xl xr, .leftOf pv pc w up =>
      match w with
      | .nil => none
      | .node wv .red wl wr =>
          match wl with
          | .nil => none
          | .node cv _ cl cr =>
              if isBlackOrNil cl && isBlackOrNil cr then
                some (Path.fill up (.node wv .black
                  (.node pv .black (.node xv .black xl xr) (.node cv .red cl cr)) wr))
              else
                dfRestL (.node xv .black xl xr) pv .red cv cl cr (.leftOf wv .black wr up)
      | .node wv .black wl wr =>
          if isBlackOrNil wl && isBlackOrNil wr then
            deleteFixup (.node pv pc (.node xv .black xl xr) (.node wv .red wl wr)) up
          else
            dfRestL (.node xv .black xl xr) pv pc wv wl wr up
  | .node xv .black xl xr, .rightOf pv pc w up =>
      match w with
      | .nil => none
      | .node wv .red wl wr =>
          match wr with
          | .nil => none
          | .node cv _ cl cr =>
              if isBlackOrNil cr && isBlackOrNil cl then
                some (Path.fill up (.node wv .black wl
                  (.node pv .black (.node cv .red cl cr) (.node xv .black xl xr))))
              else
                dfRestR (.node xv .black xl xr) pv .red cv cl cr (.rightOf wv .black wl up)
      | .node wv .black wl wr =>
          if isBlackOrNil wr && isBlackOrNil wl then
            deleteFixup (.node pv pc (.node wv .red wl wr) (.node xv .black xl xr)) up
          else
            dfRestR (.node xv .black xl xr) pv pc wv wl wr up

/-- `deleteNode` (lines 192-225).  `rbTransplant` (lines 228-239) is the
replacement of the focused subtree in its context, performed by
`Path.fill`/`deleteFixup`.  The fixup runs only when the spliced-out
color was black AND the replacement `x` is non-nil (line 222) -- the
latter guard is the source of the black-height bug. -/
def deleteNode (z : Tree α) (p : Path α) : Option (Tree α) :=
  match z with
  | .nil => none
  | .node _ zc .nil zr =>
      if zc = Color.black ∧ zr ≠ Tree.nil then deleteFixup zr p
      else some (Path.fill p zr)
  | .node _ zc zl .nil =>
      if zc = Color.black ∧ zl ≠ Tree.nil then deleteFixup zl p
      else some (Path.fill p zl)
  | .node _ zc zl zr =>
      match minSplice zr with
      | none => none
      | some (yv, yc, x, sp) =>
          if yc = Color.black ∧ x ≠ Tree.nil then
            deleteFixup x (extendL sp (.rightOf yv zc zl p))
          else
            some (Path.fill p (.node yv zc zl (rebuildL sp x)))

/-- `Remove` (lines 177-189): no-op when absent, otherwise `deleteNode`
and decrement `size`. -/
def Set.Remove (s : Set α) (x : α) : Option (Set α) :=
  match bstFindPath x s.root .root with
  | none => some s
  | some (z, p) =>
      match deleteNode z p with
      | none => none
      | some t => some ⟨t, s.size - 1⟩

/-- `minNode` (lines 325-330): follow left children. -/
def minNode : Tree α → Tree α
  | .nil => .nil
  | .node v c .nil r => .node v c .nil r
  | .node _ _ (.node lv lc ll lr) _ => minNode (.node lv lc ll lr)

/-- `maxNode` (lines 332-337): follow right children. -/
def maxNode : Tree α → Tree α
  | .nil => .nil
  | .node v c l .nil => .node v c l .nil
  | .node _ _ _ (.node rv rc rl rr) => maxNode (.node rv rc rl rr)

/-- `Min` (lines 306-313): zero value and false on an empty set. -/
def Set.Min [Inhabited α] (s : Set α) : α × Bool :=
  match s.root with
  | .nil => (default, false)
  | .node v c l r =>
      match minNode (.node v c l r) with
      | .node m _ _ _ => (m, true)
      | .nil => (default, false)

/-- `Max` (lines 316-323). -/
def Set.Max [Inhabited α] (s : Set α) : α × Bool :=
  match s.root with
  | .nil => (default, false)
  | .node v c l r =>
      match maxNode (.node v c l r) with
      | .node m _ _ _ => (m, true)
      | .nil => (default, false)

/-- Number of nodes, used only as a termination measure for `allLoop`. -/
def Tree.size : Tree α → Nat
  | .nil => 0
  | .node _ _ l r => l.size + r.size + 1

def rightSize : Tree α → Nat
  | .nil => 0
  | .node _ _ _ r => r.size

/-- The explicit-stack in-order walk of `All` (lines 339-358) with a
consumer that never stops early: push the left spine, pop, yield, descend
right.  The initial stack capacity computation (line 341) only
pre-allocates and does not affect the sequence. -/
def allLoop : Tree α → List (Tree α) → List α
  | .node v c l r, stack => allLoop l (.node v c l r :: stack)
  | .nil, [] => []
  | .nil, .nil :: stack => allLoop .nil stack
  | .nil, .node v _ _ r :: stack => v :: allLoop r stack
termination_by t stack => 2 * t.size + (stack.map (fun m => 2 * rightSize m + 1)).sum
decreasing_by
  all_goals simp [Tree.size, rightSize]
  all_goals omega

/-- `All` collected into a list. -/
def Set.All (s : Set α) : List α := allLoop s.root []

/-- Plain in-order traversal, the specification-side view of the tree's
contents. -/
def inorder : Tree α → List α
  | .nil => []
  | .node v _ l r => inorder l ++ v :: inorder r

/-- One public mutating operation. -/
inductive Op (α : Type) where
  | ins (x : α) : Op α
  | rem (x : α) : Op α

def applyOp (s : Set α) : Op α → Option (Set α)
  | .ins x => s.Insert x
  | .rem x => s.Remove x

/-- Run a sequence of operations from a given state; `none` as soon as an
operation hits a nil dereference (a Go runtime panic). -/
def runFrom (s : Set α) : List (Op α) → Option (Set α)
  | [] => some s
  | op :: l =>
      match applyOp s op with
      | none => none
      | some s' => runFrom s' l

def runOps (l : List (Op α)) : Option (Set α) := runFrom New l

/-- States reachable from the freshly constructed empty set by completed
Insert/Remove operations. -/
inductive Reachable : Set α → Prop where
  | init : Reachable New
  | step (s s' : Set α) (op : Op α) : Reachable s → applyOp s op = some s' → Reachable s'

/-- Black-height of a tree: `none` when some node has children of
differing black-heights (red-black property 5 violated). -/
def bhOpt : Tree α → Option Nat
  | .nil => some 0
  | .node _ c l r =>
      match bhOpt l, bhOpt r with
      | some a, some b =>
          if a = b then some (a + (if c = Color.black then 1 else 0)) else none
      | _, _ => none

/-- The root, if present, is black. -/
def rootBlack : Tree α → Bool
  | .nil => true
  | .node _ .black _ _ => true
  | .node _ .red _ _ => false

/-- No red node has a red child. -/
def noRedRed : Tree α → Bool
  | .nil => true
  | .node _ .black l r => noRedRed l && noRedRed r
  | .node _ .red l r => isBlackOrNil l && isBlackOrNil r && noRedRed l && noRedRed r

/-- Functional (side-effect-free) view of the structural BST insertion:
`bstInsertPath` plus attachment produces exactly this tree
(`bstInsertPath_fill` below). -/
def insTree (x : α) : Tree α → Tree α
  | .nil => .node x .red .nil .nil
  | .node v c l r =>
      if x < v then .node v c (insTree x l) r
      else if x > v then .node v c l (insTree x r)
      else .node v c l r

/-- Elements of the reconstructed tree strictly to the left of the focus. -/
def leftL : Path α → List α
  | .root => []
  | .leftOf _ _ _ up => leftL up
  | .rightOf v _ sib up => leftL up ++ inorder sib ++ [v]

/-- Elements of the reconstructed tree strictly to the right of the focus. -/
def rightL : Path α → List α
  | .root => []
  | .leftOf v _ sib up => v :: inorder sib ++ rightL up
  | .rightOf _ _ _ up => rightL up

theorem inorder_fill (p : Path α) (t : Tree α) :
    inorder (Path.fill p t) = leftL p ++ inorder t ++ rightL p := by
  induction p generalizing t with
  | root => simp [Path.fill, leftL, rightL]
  | leftOf v c sib up ih =>
      simp [Path.fill, leftL, rightL, ih, inorder, List.append_assoc]
  | rightOf v c sib up ih =>
      simp [Path.fill, leftL, rightL, ih, inorder, List.append_assoc]

theorem inorder_setBlack (t : Tree α) : inorder (setBlack t) = inorder t := by
  cases t <;> simp [setBlack, inorder]

theorem bstInsertPath_fill (x : α) (t : Tree α) (q : Path α) (p : Path α)
    (h : bstInsertPath x t q = some p) :
    Path.fill p (.node x .red .nil .nil) = Path.fill q (insTree x t) := by
  induction t generalizing q with
  | nil =>
      simp [bstInsertPath] at h
      subst h; rfl
  | node v c l r ihl ihr =>
      simp only [bstInsertPath] at h
      by_cases h1 : x < v
      · simp only [if_pos h1] at h
        simpa [insTree, if_pos h1, Path.fill] using ihl _ h
      · by_cases h2 : x > v
        · simp only [if_neg h1, if_pos h2] at h
          simpa [insTree, if_neg h1, if_pos h2, Path.fill] using ihr _ h
        · simp [if_neg h1, if_neg h2] at h

theorem bstInsertPath_none_iff (x : α) (t : Tree α) (q : Path α) :
    bstInsertPath x t q = none ↔ contains x t = true := by
  induction t generalizing q with
  | nil => simp [bstInsertPath, contains]
  | node v c l r ihl ihr =>
      by_cases h1 : x < v
      · simp [bstInsertPath, contains, if_pos h1, ihl]
      · by_cases h2 : x > v
        · simp [bstInsertPath, contains, if_neg h1, if_pos h2, ihr]
        · simp [bstInsertPath, contains, if_neg h1, if_neg h2]

theorem insertFixup_inorder (z : Tree α) (p : Path α) (t : Tree α)
    (h : insertFixup z p = some t) : inorder t = inorder (Path.fill p z) := by
  induction z, p using insertFixup.induct generalizing t <;>
    simp only [insertFixup] at h
  all_goals first
    | (injection h with h; subst h;
       simp [inorder_fill, inorder, leftL, rightL, List.append_assoc])
    | (rename_i ih; rw [ih _ h];
       simp [inorder_fill, inorder, leftL, rightL, List.append_assoc])
    | exact absurd h (by simp)

theorem rebuildL_append (sp : List (α × Color × Tree α)) (v : α) (c : Color)
    (r : Tree α) (t : Tree α) :
    rebuildL (sp ++ [(v, c, r)]) t = .node v c (rebuildL sp t) r := by
  induction sp generalizing t with
  | nil => rfl
  | cons e sp ih =>
      obtain ⟨a, b, d⟩ := e
      simp [rebuildL, ih]

theorem fill_extendL (sp : List (α × Color × Tree α)) (q : Path α) (t : Tree α) :
    Path.fill (extendL sp q) t = Path.fill q (rebuildL sp t) := by
  induction sp generalizing t with
  | nil => rfl
  | cons e sp ih =>
      obtain ⟨a, b, d⟩ := e
      simp [extendL, rebuildL, Path.fill, ih]

theorem minSplice_inorder (t : Tree α) (yv : α) (yc : Color) (x : Tree α)
    (sp : List (α × Color × Tree α)) (h : minSplice t = some (yv, yc, x, sp)) :
    inorder t = yv :: inorder (rebuildL sp x) := by
  induction t generalizing yv yc x sp with
  | nil => simp [minSplice] at h
  | node v c l r ihl ihr =>
      cases l with
      | nil =>
          simp [minSplice] at h
          obtain ⟨h1, h2, h3, h4⟩ := h
          subst h1; subst h3; subst h4
          simp [inorder, rebuildL]
      | node lv lc ll lr =>
          simp only [minSplice] at h
          cases hm : minSplice (.node lv lc ll lr) with
          | none => rw [hm] at h; simp at h
          | some res =>
              obtain ⟨av, ac, ax, asp⟩ := res
              rw [hm] at h
              simp only [Option.some.injEq, Prod.mk.injEq] at h
              obtain ⟨h1, h2, h3, h4⟩ := h
              subst h1; subst h3; subst h4
              rw [inorder, ihl _ _ _ _ hm, rebuildL_append]
              simp [inorder]

theorem minSplice_isSome (t : Tree α) (h : t ≠ Tree.nil) :
    (minSplice t).isSome := by
  induction t with
  | nil => exact absurd rfl h
  | node v c l r ihl ihr =>
      cases l with
      | nil => simp [minSplice]
      | node lv lc ll lr =>
          simp only [minSplice]
          cases hm : minSplice (.node lv lc ll lr) with
          | none => rw [hm] at ihl; simp at ihl
          | some res => obtain ⟨av, ac, ax, asp⟩ := res; simp

theorem dfRestL_inorder (x : Tree α) (pv : α) (pcur : Color) (wv : α)
    (wl wr : Tree α) (q : Path α) (t : Tree α)
    (h : dfRestL x pv pcur wv wl wr q = some t) :
    inorder t = leftL q ++ inorder x ++ pv :: (inorder wl ++ wv :: inorder wr) ++ rightL q := by
  unfold dfRestL at h
  split at h
  · cases wl with
    | nil => simp at h
    | node av ac al ar =>
        injection h with h; subst h
        simp [inorder_setBlack, inorder_fill, inorder, List.append_assoc]
  · cases wr with
    | nil => simp at h
    | node bv bc bl br =>
        injection h with h; subst h
        simp [inorder_setBlack, inorder_fill, inorder, List.append_assoc]

theorem dfRestR_inorder (x : Tree α) (pv : α) (pcur : Color) (wv : α)
    (wl wr : Tree α) (q : Path α) (t : Tree α)
    (h : dfRestR x pv pcur wv wl wr q = some t) :
    inorder t = leftL q ++ (inorder wl ++ wv :: inorder wr) ++ pv :: inorder x ++ rightL q := by
  unfold dfRestR at h
  split at h
  · cases wr with
    | nil => simp at h
    | node bv bc bl br =>
        injection h with h; subst h
        simp [inorder_setBlack, inorder_fill, inorder, List.append_assoc]
  · cases wl with
    | nil => simp at h
    | node av ac al ar =>
        injection h with h; subst h
        simp [inorder_setBlack, inorder_fill, inorder, List.append_assoc]

theorem deleteFixup_inorder (x : Tree α) (p : Path α) (t : Tree α)
    (h : deleteFixup x p = some t) : inorder t = inorder (Path.fill p x) := by
  induction x, p using deleteFixup.induct generalizing t
  all_goals simp only [deleteFixup] at h
  all_goals try simp only [*, ite_true, ite_false] at h
  all_goals first
    | exact Option.noConfusion h
    | (injection h with h; subst h;
       simp [inorder_setBlack, inorder_fill, inorder, leftL, rightL, List.append_assoc])
    | (rw [dfRestL_inorder _ _ _ _ _ _ _ _ h]
       simp [inorder_fill, inorder, leftL, rightL, List.append_assoc])
    | (rw [dfRestR_inorder _ _ _ _ _ _ _ _ h]
       simp [inorder_fill, inorder, leftL, rightL, List.append_assoc])
    | (rename_i ih
       rw [ih _ h]
       simp [inorder_fill, inorder, leftL, rightL, List.append_assoc])

theorem bstFindPath_none_iff (x : α) (t : Tree α) (q : Path α) :
    bstFindPath x t q = none ↔ contains x t = false := by
  induction t generalizing q with
  | nil => simp [bstFindPath, contains]
  | node v c l r ihl ihr =>
      by_cases h1 : x < v
      · simp [bstFindPath, contains, if_pos h1, ihl]
      · by_cases h2 : x > v
        · simp [bstFindPath, contains, if_neg h1, if_pos h2, ihr]
        · simp [bstFindPath, contains, if_neg h1, if_neg h2]

theorem bstFindPath_some (x : α) (t : Tree α) (q : Path α) (z : Tree α) (p : Path α)
    (h : bstFindPath x t q = some (z, p)) :
    Path.fill p z = Path.fill q t ∧ ∃ c l r, z = Tree.node x c l r := by
  induction t generalizing q with
  | nil => simp [bstFindPath] at h
  | node v c l r ihl ihr =>
      simp only [bstFindPath] at h
      by_cases h1 : x < v
      · rw [if_pos h1] at h
        simpa [Path.fill] using ihl _ h
      · by_cases h2 : x > v
        · rw [if_neg h1, if_pos h2] at h
          simpa [Path.fill] using ihr _ h
        · rw [if_neg h1, if_neg h2] at h
          have hv : x = v := le_antisymm (not_lt.mp h2) (not_lt.mp h1)
          subst hv
          injection h with h
          have hz : z = Tree.node x c l r := (congrArg Prod.fst h).symm
          have hp : p = q := (congrArg Prod.snd h).symm
          subst hz; subst hp
          exact ⟨rfl, c, l, r, rfl⟩

theorem deleteNode_inorder (zv : α) (zc : Color) (zl zr : Tree α) (p : Path α)
    (t : Tree α) (h : deleteNode (.node zv zc zl zr) p = some t) :
    inorder t = leftL p ++ (inorder zl ++ inorder zr) ++ rightL p := by
  cases zl with
  | nil =>
      simp only [deleteNode] at h
      split at h
      · rw [deleteFixup_inorder _ _ _ h]
        simp [inorder_fill, inorder, List.append_assoc]
      · injection h with h; subst h
        simp [inorder_fill, inorder, List.append_assoc]
  | node lv lc ll lr =>
      cases zr with
      | nil =>
          simp only [deleteNode] at h
          split at h
          · rw [deleteFixup_inorder _ _ _ h]
            simp [inorder_fill, inorder, List.append_assoc]
          · injection h with h; subst h
            simp [inorder_fill, inorder, List.append_assoc]
      | node rv rc rl rr =>
          simp only [deleteNode] at h
          cases hm : minSplice (Tree.node rv rc rl rr) with
          | none =>
              have := minSplice_isSome (Tree.node rv rc rl rr) (by simp)
              rw [hm] at this; simp at this
          | some res =>
              obtain ⟨yv, yc, xx, sp⟩ := res
              simp only [hm] at h
              have hms := minSplice_inorder _ _ _ _ _ hm
              split at h
              · rw [deleteFixup_inorder _ _ _ h, fill_extendL, hms]
                simp [inorder_fill, inorder, Path.fill, List.append_assoc]
              · injection h with h; subst h
                rw [hms]
                simp [inorder_fill, inorder, List.append_assoc]

theorem sorted_append_iff {l₁ l₂ : List α} :
    (l₁ ++ l₂).Sorted (· < ·) ↔
      l₁.Sorted (· < ·) ∧ l₂.Sorted (· < ·) ∧ ∀ a ∈ l₁, ∀ b ∈ l₂, a < b :=
  List.pairwise_append

theorem contains_iff_mem (x : α) (t : Tree α) (hs : (inorder t).Sorted (· < ·)) :
    contains x t = true ↔ x ∈ inorder t := by
  induction t with
  | nil => simp [contains, inorder]
  | node v c l r ihl ihr =>
      rw [inorder, sorted_append_iff] at hs
      obtain ⟨hl, hvr, hcross⟩ := hs
      rw [List.sorted_cons] at hvr
      obtain ⟨hvr1, hr⟩ := hvr
      by_cases h1 : x < v
      · rw [contains, if_pos h1, ihl hl]
        simp only [inorder, List.mem_append, List.mem_cons]
        constructor
        · exact fun hx => Or.inl hx
        · rintro (hx | hx | hx)
          · exact hx
          · exact absurd (hx ▸ h1) (lt_irrefl v)
          · exact absurd (hvr1 x hx) (lt_asymm h1)
      · by_cases h2 : x > v
        · rw [contains, if_neg h1, if_pos h2, ihr hr]
          simp only [inorder, List.mem_append, List.mem_cons]
          constructor
          · exact fun hx => Or.inr (Or.inr hx)
          · rintro (hx | hx | hx)
            · exact absurd h2 (lt_asymm (hcross x hx v (List.mem_cons_self v _)))
            · exact absurd (hx ▸ h2) (lt_irrefl v)
            · exact hx
        · have hv : x = v := le_antisymm (not_lt.mp h2) (not_lt.mp h1)
          subst hv
          simp [contains, if_neg h1, if_neg h2, inorder]

theorem insTree_eq_of_contains (x : α) (t : Tree α) (hc : contains x t = true) :
    insTree x t = t := by
  induction t with
  | nil => simp [contains] at hc
  | node v c l r ihl ihr =>
      by_cases h1 : x < v
      · rw [contains, if_pos h1] at hc
        simp [insTree, if_pos h1, ihl hc]
      · by_cases h2 : x > v
        · rw [contains, if_neg h1, if_pos h2] at hc
          simp [insTree, if_neg h1, if_pos h2, ihr hc]
        · simp [insTree, if_neg h1, if_neg h2]

theorem mem_insTree (x y : α) (t : Tree α) :
    y ∈ inorder (insTree x t) ↔ y ∈ inorder t ∨ y = x := by
  induction t with
  | nil => simp [insTree, inorder]
  | node v c l r ihl ihr =>
      by_cases h1 : x < v
      · simp only [insTree, if_pos h1, inorder, List.mem_append, List.mem_cons, ihl]
        tauto
      · by_cases h2 : x > v
        · simp only [insTree, if_neg h1, if_pos h2, inorder, List.mem_append,
            List.mem_cons, ihr]
          tauto
        · have hv : x = v := le_antisymm (not_lt.mp h2) (not_lt.mp h1)
          subst hv
          simp only [insTree, if_neg h1, if_neg h2, inorder, List.mem_append,
            List.mem_cons]
          tauto

theorem length_insTree (x : α) (t : Tree α) (hc : contains x t = false) :
    (inorder (insTree x t)).length = (inorder t).length + 1 := by
  induction t with
  | nil => simp [insTree, inorder]
  | node v c l r ihl ihr =>
      by_cases h1 : x < v
      · rw [contains, if_pos h1] at hc
        simp only [insTree, if_pos h1, inorder, List.length_append, List.length_cons,
          ihl hc]
        omega
      · by_cases h2 : x > v
        · rw [contains, if_neg h1, if_pos h2] at hc
          simp only [insTree, if_neg h1, if_pos h2, inorder, List.length_append,
            List.length_cons, ihr hc]
          omega
        · simp [contains, if_neg h1, if_neg h2] at hc

theorem sorted_insTree (x : α) (t : Tree α) (hs : (inorder t).Sorted (· < ·))
    (hc : contains x t = false) : (inorder (insTree x t)).Sorted (· < ·) := by
  induction t with
  | nil => simp [insTree, inorder]
  | node v c l r ihl ihr =>
      rw [inorder, sorted_append_iff] at hs
      obtain ⟨hl, hvr, hcross⟩ := hs
      have hvr1 := (List.sorted_cons.mp hvr).1
      by_cases h1 : x < v
      · rw [contains, if_pos h1] at hc
        rw [insTree, if_pos h1, inorder, sorted_append_iff]
        refine ⟨ihl hl hc, hvr, ?_⟩
        intro a ha b hb
        rcases (mem_insTree x a l).mp ha with ha' | rfl
        · exact hcross a ha' b hb
        · rcases List.mem_cons.mp hb with rfl | hb'
          · exact h1
          · exact lt_trans h1 (hvr1 b hb')
      · by_cases h2 : x > v
        · rw [contains, if_neg h1, if_pos h2] at hc
          rw [insTree, if_neg h1, if_pos h2, inorder, sorted_append_iff]
          have hr := (List.sorted_cons.mp hvr).2
          refine ⟨hl, ?_, ?_⟩
          · rw [List.sorted_cons]
            refine ⟨?_, ihr hr hc⟩
            intro b hb
            rcases (mem_insTree x b r).mp hb with hb' | rfl
            · exact hvr1 b hb'
            · exact h2
          · intro a ha b hb
            rcases List.mem_cons.mp hb with rfl | hb'
            · exact hcross a ha b (List.mem_cons_self b _)
            · rcases (mem_insTree x b r).mp hb' with hb2 | rfl
              · exact hcross a ha b (List.mem_cons.mpr (Or.inr hb2))
              · exact lt_trans (hcross a ha v (List.mem_cons_self v _)) h2
        · simp [contains, if_neg h1, if_neg h2] at hc

theorem rootBlack_setBlack (t : Tree α) : rootBlack (setBlack t) = true := by
  cases t <;> rfl

theorem Insert_found (s : Set α) (x : α) (hc : contains x s.root = true) :
    s.Insert x = some s := by
  unfold Set.Insert
  rw [(bstInsertPath_none_iff x s.root .root).mpr hc]

theorem Insert_new (s : Set α) (x : α) (s' : Set α) (h : s.Insert x = some s')
    (hc : contains x s.root = false) :
    inorder s'.root = inorder (insTree x s.root) ∧ s'.size = s.size + 1 ∧
      rootBlack s'.root = true := by
  unfold Set.Insert at h
  cases hp : bstInsertPath x s.root .root with
  | none =>
      rw [bstInsertPath_none_iff] at hp
      rw [hp] at hc; cases hc
  | some p =>
      cases hf : insertFixup (.node x .red .nil .nil) p with
      | none =>
          simp only [hp, hf] at h
          exact Option.noConfusion h
      | some t0 =>
          simp only [hp, hf] at h
          injection h with h; subst h
          refine ⟨?_, rfl, rootBlack_setBlack t0⟩
          show inorder (setBlack t0) = _
          rw [inorder_setBlack, insertFixup_inorder _ _ _ hf,
            bstInsertPath_fill x s.root .root p hp]
          rfl

def colorBlackB : Color → Bool
  | .black => true
  | .red => false

/-- The blackness of the root of any tree rebuilt along `p`; `b` is used
only when `p` is the trivial path (the focus itself is the root). -/
def Path.outerBlack : Path α → Bool → Bool
  | .root, b => b
  | .leftOf _ c _ up, _ => Path.outerBlack up (colorBlackB c)
  | .rightOf _ c _ up, _ => Path.outerBlack up (colorBlackB c)

/-- Root color of a tree with a default for the empty tree. -/
def rootColorB : Tree α → Bool → Bool
  | .nil, b => b
  | .node _ c _ _, _ => colorBlackB c

theorem rootBlack_node (v : α) (c : Color) (l r : Tree α) :
    rootBlack (Tree.node v c l r) = colorBlackB c := by
  cases c <;> rfl

theorem rootColorB_true (t : Tree α) : rootColorB t true = rootBlack t := by
  cases t with
  | nil => rfl
  | node v c l r => rw [rootColorB, rootBlack_node]

theorem rootBlack_fill (p : Path α) (t : Tree α) :
    rootBlack (Path.fill p t) = p.outerBlack (rootBlack t) := by
  induction p generalizing t with
  | root => rfl
  | leftOf v c sib up ih =>
      rw [Path.fill, ih, rootBlack_node]; rfl
  | rightOf v c sib up ih =>
      rw [Path.fill, ih, rootBlack_node]; rfl

theorem outerBlack_mono (p : Path α) {b : Bool} (h : p.outerBlack b = true) :
    p.outerBlack true = true := by
  cases p with
  | root => rfl
  | leftOf v c sib up => exact h
  | rightOf v c sib up => exact h

theorem outerBlack_const (p : Path α) (hp : p ≠ Path.root) (b b' : Bool) :
    p.outerBlack b = p.outerBlack b' := by
  cases p with
  | root => exact absurd rfl hp
  | leftOf v c sib up => rfl
  | rightOf v c sib up => rfl

theorem outerBlack_extendL (sp : List (α × Color × Tree α)) (q : Path α)
    (hq : q ≠ Path.root) (b : Bool) :
    (extendL sp q).outerBlack b = q.outerBlack true := by
  induction sp generalizing b with
  | nil => exact outerBlack_const q hq b true
  | cons e sp ih =>
      obtain ⟨v, c, r⟩ := e
      rw [extendL, Path.outerBlack, ih]

theorem dfRestL_rootBlack (x : Tree α) (pv : α) (pcur : Color) (wv : α)
    (wl wr : Tree α) (q : Path α) (t : Tree α)
    (h : dfRestL x pv pcur wv wl wr q = some t) : rootBlack t = true := by
  unfold dfRestL at h
  split at h <;> split at h <;>
    first
    | exact Option.noConfusion h
    | (injection h with h; subst h; exact rootBlack_setBlack _)

theorem dfRestR_rootBlack (x : Tree α) (pv : α) (pcur : Color) (wv : α)
    (wl wr : Tree α) (q : Path α) (t : Tree α)
    (h : dfRestR x pv pcur wv wl wr q = some t) : rootBlack t = true := by
  unfold dfRestR at h
  split at h <;> split at h <;>
    first
    | exact Option.noConfusion h
    | (injection h with h; subst h; exact rootBlack_setBlack _)

theorem deleteFixup_rootBlack (x : Tree α) (p : Path α) (t : Tree α)
    (h : deleteFixup x p = some t) (hb : p.outerBlack true = true) :
    rootBlack t = true := by
  induction x, p using deleteFixup.induct generalizing t
  all_goals simp only [deleteFixup] at h
  all_goals try simp only [*, ite_true, ite_false] at h
  all_goals first
    | exact Option.noConfusion h
    | (injection h with h; subst h; exact rootBlack_setBlack _)
    | (injection h with h; subst h
       rw [rootBlack_fill]
       first
       | simpa [Path.outerBlack] using hb
       | (simp only [rootBlack_node, colorBlackB]
          exact outerBlack_mono _ (by simpa [Path.outerBlack] using hb)))
    | exact dfRestL_rootBlack _ _ _ _ _ _ _ _ h
    | exact dfRestR_rootBlack _ _ _ _ _ _ _ _ h
    | (rename_i ih
       exact ih _ h (outerBlack_mono _ (by simpa [Path.outerBlack] using hb)))

theorem deleteNode_rootBlack (zv : α) (zc : Color) (zl zr : Tree α) (p : Path α)
    (t : Tree α) (h : deleteNode (.node zv zc zl zr) p = some t)
    (hb : p.outerBlack (colorBlackB zc) = true) : rootBlack t = true := by
  cases zl with
  | nil =>
      simp only [deleteNode] at h
      split at h
      · exact deleteFixup_rootBlack _ _ _ h (outerBlack_mono _ hb)
      · injection h with h; subst h
        rw [rootBlack_fill]
        cases p with
        | root =>
            rename_i hcond
            rcases Decidable.em (zc = Color.black) with hzc | hzc
            · have hzr : zr = Tree.nil := by
                by_contra hne
                exact hcond ⟨hzc, hne⟩
              subst hzr; rfl
            · cases zc with
              | black => exact absurd rfl hzc
              | red => exact absurd hb (by simp [Path.outerBlack, colorBlackB])
        | leftOf v c sib up => exact (outerBlack_const _ (by simp) _ _).trans hb
        | rightOf v c sib up => exact (outerBlack_const _ (by simp) _ _).trans hb
  | node lv lc ll lr =>
      cases zr with
      | nil =>
          simp only [deleteNode] at h
          split at h
          · exact deleteFixup_rootBlack _ _ _ h (outerBlack_mono _ hb)
          · injection h with h; subst h
            rw [rootBlack_fill]
            cases p with
            | root =>
                rename_i hcond
                cases zc with
                | black => exact absurd ⟨rfl, by simp⟩ hcond
                | red => exact absurd hb (by simp [Path.outerBlack, colorBlackB])
            | leftOf v c sib up => exact (outerBlack_const _ (by simp) _ _).trans hb
            | rightOf v c sib up => exact (outerBlack_const _ (by simp) _ _).trans hb
      | node rv rc rl rr =>
          simp only [deleteNode] at h
          cases hm : minSplice (Tree.node rv rc rl rr) with
          | none =>
              have := minSplice_isSome (Tree.node rv rc rl rr) (by simp)
              rw [hm] at this; simp at this
          | some res =>
              obtain ⟨yv, yc, xx, sp⟩ := res
              simp only [hm] at h
              split at h
              · refine deleteFixup_rootBlack _ _ _ h ?_
                rw [outerBlack_extendL _ _ (by simp)]
                simpa [Path.outerBlack] using hb
              · injection h with h; subst h
                rw [rootBlack_fill, rootBlack_node]
                exact hb

theorem bstInsertPath_outerBlack (x : α) (t : Tree α) (q : Path α) (p : Path α)
    (b : Bool) (h : bstInsertPath x t q = some p) :
    p.outerBlack b = q.outerBlack (rootColorB t b) := by
  induction t generalizing q b with
  | nil =>
      simp only [bstInsertPath] at h
      injection h with h
      subst h; rfl
  | node v c l r ihl ihr =>
      simp only [bstInsertPath] at h
      by_cases h1 : x < v
      · rw [if_pos h1] at h
        rw [ihl _ _ h]; rfl
      · by_cases h2 : x > v
        · rw [if_neg h1, if_pos h2] at h
          rw [ihr _ _ h]; rfl
        · rw [if_neg h1, if_neg h2] at h
          exact Option.noConfusion h

theorem insertFixup_isSome (z : Tree α) (p : Path α) (hz : z ≠ Tree.nil)
    (hb : p.outerBlack true = true) : (insertFixup z p).isSome := by
  induction z, p using insertFixup.induct
  all_goals simp only [insertFixup]
  all_goals first
    | rfl
    | (rename_i ih
       exact ih (by simp) (outerBlack_mono _ (by simpa [Path.outerBlack] using hb)))
    | (revert hb; simp [Path.outerBlack, colorBlackB]; done)
    | exact absurd rfl hz

theorem Insert_isSome (s : Set α) (x : α) (hb : rootBlack s.root = true) :
    (s.Insert x).isSome := by
  unfold Set.Insert
  cases hp : bstInsertPath x s.root .root with
  | none => simp
  | some p =>
      have hob : p.outerBlack true = true := by
        rw [bstInsertPath_outerBlack x s.root .root p true hp, rootColorB_true]
        exact hb
      have hsome := insertFixup_isSome (.node x .red .nil .nil) p (by simp) hob
      cases hf : insertFixup (.node x .red .nil .nil) p with
      | none => rw [hf] at hsome; simp at hsome
      | some t0 => simp [hf]

theorem Remove_notfound (s : Set α) (x : α) (hc : contains x s.root = false) :
    s.Remove x = some s := by
  unfold Set.Remove
  rw [(bstFindPath_none_iff x s.root .root).mpr hc]

theorem Remove_found (s : Set α) (x : α) (s' : Set α) (h : s.Remove x = some s')
    (hc : contains x s.root = true) (hb : rootBlack s.root = true) :
    (∃ L R, inorder s.root = L ++ x :: R ∧ inorder s'.root = L ++ R) ∧
      s'.size = s.size - 1 ∧ rootBlack s'.root = true := by
  unfold Set.Remove at h
  cases hp : bstFindPath x s.root .root with
  | none =>
      rw [bstFindPath_none_iff] at hp
      rw [hc] at hp; cases hp
  | some zp =>
      obtain ⟨z, p⟩ := zp
      obtain ⟨hfill, c, l, r, hz⟩ := bstFindPath_some x s.root .root z p hp
      subst hz
      simp only [hp] at h
      cases hd : deleteNode (.node x c l r) p with
      | none =>
          simp only [hd] at h
          exact Option.noConfusion h
      | some t0 =>
          simp only [hd] at h
          injection h with h; subst h
          have hdi := deleteNode_inorder _ _ _ _ _ _ hd
          have hroot : inorder s.root = inorder (Path.fill p (Tree.node x c l r)) := by
            rw [hfill]; rfl
          refine ⟨⟨leftL p ++ inorder l, inorder r ++ rightL p, ?_, ?_⟩, rfl, ?_⟩
          · rw [hroot, inorder_fill]
            simp [inorder, List.append_assoc]
          · rw [hdi]
            simp [List.append_assoc]
          · refine deleteNode_rootBlack _ _ _ _ _ _ hd ?_
            have : rootBlack (Path.fill p (Tree.node x c l r)) = true := by
              rw [hfill]; exact hb
            rw [rootBlack_fill, rootBlack_node] at this
            exact this

theorem sorted_erase_mid (x : α) (L R : List α)
    (hs : (L ++ x :: R).Sorted (· < ·)) :
    (L ++ R).Sorted (· < ·) ∧ (∀ y, y ∈ L ++ R ↔ y ∈ L ++ x :: R ∧ y ≠ x) ∧
      ((L ++ R).length : Int) = (L ++ x :: R).length - 1 := by
  rw [sorted_append_iff] at hs
  obtain ⟨hL, hxR, hcross⟩ := hs
  rw [List.sorted_cons] at hxR
  obtain ⟨hxR1, hR⟩ := hxR
  have hLx : ∀ a ∈ L, a < x := fun a ha => hcross a ha x (List.mem_cons_self x _)
  refine ⟨?_, ?_, by simp; omega⟩
  · rw [sorted_append_iff]
    exact ⟨hL, hR, fun a ha b hb => lt_trans (hLx a ha) (hxR1 b hb)⟩
  · intro y
    simp only [List.mem_append, List.mem_cons]
    constructor
    · rintro (hy | hy)
      · exact ⟨Or.inl hy, ne_of_lt (hLx y hy)⟩
      · exact ⟨Or.inr (Or.inr hy), ne_of_gt (hxR1 y hy)⟩
    · rintro ⟨hy | hy | hy, hne⟩
      · exact Or.inl hy
      · exact absurd hy hne
      · exact Or.inr hy

/-- The reachability invariant: sorted contents, an accurate size field,
and a black (or absent) root. -/
def Inv (s : Set α) : Prop :=
  (inorder s.root).Sorted (· < ·) ∧ s.size = ((inorder s.root).length : Int) ∧
    rootBlack s.root = true

theorem Inv_New : Inv (New : Set α) :=
  ⟨by simp [New, inorder], by simp [New, inorder], by simp [New, rootBlack]⟩

theorem Insert_char (s : Set α) (x : α) (s' : Set α) (hi : Inv s)
    (h : s.Insert x = some s') :
    Inv s' ∧ (∀ y, y ∈ inorder s'.root ↔ y ∈ inorder s.root ∨ y = x) ∧
      (contains x s.root = true → s' = s) ∧
      (contains x s.root = false → s'.size = s.size + 1) := by
  obtain ⟨hs, hlen, hrb⟩ := hi
  cases hc : contains x s.root with
  | true =>
      rw [Insert_found s x hc] at h
      injection h with h; subst h
      refine ⟨⟨hs, hlen, hrb⟩, ?_, fun _ => rfl, fun hf => Bool.noConfusion hf⟩
      intro y
      constructor
      · exact Or.inl
      · rintro (hy | rfl)
        · exact hy
        · exact (contains_iff_mem _ s.root hs).mp hc
  | false =>
      obtain ⟨hio, hsz, hrb'⟩ := Insert_new s x s' h hc
      refine ⟨⟨?_, ?_, hrb'⟩, ?_, fun ht => Bool.noConfusion ht, fun _ => hsz⟩
      · rw [hio]; exact sorted_insTree x s.root hs hc
      · rw [hsz, hio, hlen, length_insTree x s.root hc]
        push_cast
        ring
      · intro y
        rw [hio, mem_insTree]

theorem Remove_char (s : Set α) (x : α) (s' : Set α) (hi : Inv s)
    (h : s.Remove x = some s') :
    Inv s' ∧ (∀ y, y ∈ inorder s'.root ↔ y ∈ inorder s.root ∧ y ≠ x) ∧
      (contains x s.root = false → s' = s) ∧
      (contains x s.root = true → s'.size = s.size - 1) := by
  obtain ⟨hs, hlen, hrb⟩ := hi
  cases hc : contains x s.root with
  | false =>
      rw [Remove_notfound s x hc] at h
      injection h with h; subst h
      refine ⟨⟨hs, hlen, hrb⟩, ?_, fun _ => rfl, fun ht => Bool.noConfusion ht⟩
      intro y
      constructor
      · intro hy
        refine ⟨hy, ?_⟩
        rintro rfl
        have hcy := (contains_iff_mem _ s.root hs).mpr hy
        rw [hcy] at hc
        exact Bool.noConfusion hc
      · exact fun hy => hy.1
  | true =>
      obtain ⟨⟨L, R, hLR, hLR'⟩, hsz, hrb'⟩ := Remove_found s x s' h hc hrb
      have hsor : (L ++ x :: R).Sorted (· < ·) := hLR ▸ hs
      obtain ⟨hs2, hmem, hlen2⟩ := sorted_erase_mid x L R hsor
      refine ⟨⟨?_, ?_, hrb'⟩, ?_, fun hf => Bool.noConfusion hf, fun _ => hsz⟩
      · rw [hLR']; exact hs2
      · rw [hsz, hLR', hlen2, ← hLR, ← hlen]
      · intro y
        rw [hLR', hLR]
        exact hmem y

theorem reachable_inv (s : Set α) (h : Reachable s) : Inv s := by
  induction h with
  | init => exact Inv_New
  | step s s' op hr hap ih =>
      cases op with
      | ins x => exact (Insert_char s x s' ih (by simpa [applyOp] using hap)).1
      | rem x => exact (Remove_char s x s' ih (by simpa [applyOp] using hap)).1

/-- Values yielded when the stack entries are popped (value, then the
right subtree's in-order walk), used to characterize `allLoop`. -/
def popAll : List (Tree α) → List α
  | [] => []
  | .nil :: st => popAll st
  | .node v _ _ r :: st => v :: inorder r ++ popAll st

theorem allLoop_eq (t : Tree α) (stack : List (Tree α)) :
    allLoop t stack = inorder t ++ popAll stack := by
  induction t, stack using allLoop.induct <;>
    simp [allLoop, inorder, popAll, *, List.append_assoc]

theorem All_eq_inorder (s : Set α) : s.All = inorder s.root := by
  simp [Set.All, allLoop_eq, popAll]

theorem minNode_spec (t : Tree α) (ht : t ≠ Tree.nil) :
    ∃ m c2 r2 rest, minNode t = Tree.node m c2 Tree.nil r2 ∧
      inorder t = m :: rest := by
  induction t using minNode.induct with
  | case1 => exact absurd rfl ht
  | case2 v c r => exact ⟨v, c, r, inorder r, rfl, by simp [inorder]⟩
  | case3 v c lv lc ll lr r ih =>
      obtain ⟨m, c2, r2, rest, hmn, hio⟩ := ih (by simp)
      refine ⟨m, c2, r2, rest ++ v :: inorder r, ?_, ?_⟩
      · rw [minNode]; exact hmn
      · rw [inorder, hio]; simp

theorem maxNode_spec (t : Tree α) (ht : t ≠ Tree.nil) :
    ∃ m c2 l2 rest, maxNode t = Tree.node m c2 l2 Tree.nil ∧
      inorder t = rest ++ [m] := by
  induction t using maxNode.induct with
  | case1 => exact absurd rfl ht
  | case2 v c l => exact ⟨v, c, l, inorder l, rfl, by simp [inorder]⟩
  | case3 v c l rv rc rl rr ih =>
      obtain ⟨m, c2, l2, rest, hmn, hio⟩ := ih (by simp)
      refine ⟨m, c2, l2, inorder l ++ v :: rest, ?_, ?_⟩
      · rw [maxNode]; exact hmn
      · rw [inorder, hio]; simp

/-- The abstract model of a run: the finite set of values inserted and
not since removed. -/
def modelFold (acc : Finset α) : List (Op α) → Finset α
  | [] => acc
  | Op.ins x :: l => modelFold (insert x acc) l
  | Op.rem x :: l => modelFold (acc.erase x) l

def modelSet (l : List (Op α)) : Finset α := modelFold ∅ l

theorem runFrom_model (s : Set α) (l : List (Op α)) (s' : Set α) (hi : Inv s)
    (h : runFrom s l = some s') :
    Inv s' ∧ (inorder s'.root).toFinset = modelFold (inorder s.root).toFinset l := by
  induction l generalizing s with
  | nil =>
      simp only [runFrom] at h
      injection h with h; subst h
      exact ⟨hi, rfl⟩
  | cons op l ih =>
      simp only [runFrom] at h
      cases ha : applyOp s op with
      | none => rw [ha] at h; exact Option.noConfusion h
      | some s1 =>
          simp only [ha] at h
          cases op with
          | ins x =>
              obtain ⟨hi1, hmem, _, _⟩ :=
                Insert_char s x s1 hi (by simpa [applyOp] using ha)
              obtain ⟨hi', hmf⟩ := ih s1 hi1 h
              refine ⟨hi', ?_⟩
              rw [hmf, modelFold]
              congr 1
              ext y
              simp only [List.mem_toFinset, Finset.mem_insert]
              rw [hmem y]
              tauto
          | rem x =>
              obtain ⟨hi1, hmem, _, _⟩ :=
                Remove_char s x s1 hi (by simpa [applyOp] using ha)
              obtain ⟨hi', hmf⟩ := ih s1 hi1 h
              refine ⟨hi', ?_⟩
              rw [hmf, modelFold]
              congr 1
              ext y
              simp only [List.mem_toFinset, Finset.mem_erase]
              rw [hmem y]
              tauto

theorem reachable_of_runFrom (s : Set α) (l : List (Op α)) (s' : Set α)
    (hr : Reachable s) (h : runFrom s l = some s') : Reachable s' := by
  induction l generalizing s with
  | nil =>
      simp only [runFrom] at h
      injection h with h; subst h
      exact hr
  | cons op l ih =>
      simp only [runFrom] at h
      cases ha : applyOp s op with
      | none => rw [ha] at h; exact Option.noConfusion h
      | some s1 =>
          simp only [ha] at h
          exact ih s1 (Reachable.step s s1 op hr ha) h

/-- C1: the red-black balance invariant is claimed to hold after any
sequence of Insert/Remove.  The code violates the equal-black-count
property: after Insert 1,2,3,4 and Remove 1 the run succeeds but the
resulting tree has unequal black counts on its root-to-absent-child
paths (`bhOpt` is `none`), because `deleteNode` skips `deleteFixup`
whenever the replacement child `x` is nil (src/set.go line 222).  The
root-black and no-red-red conjuncts still hold at this state. -/
theorem C1_balance_bug :
    ∃ s : Set ℕ,
      runOps [Op.ins 1, Op.ins 2, Op.ins 3, Op.ins 4, Op.rem 1] = some s ∧
        (bhOpt s.root).isSome = false ∧ rootBlack s.root = true ∧
        noRedRed s.root = true := by
  refine ⟨⟨Tree.node 2 Color.black Tree.nil
      (Tree.node 3 Color.black Tree.nil (Tree.node 4 Color.red Tree.nil Tree.nil)), 3⟩,
    ?_, ?_, ?_, ?_⟩ <;> decide

/-- C2: the spec claims no fatal error is reachable, but this sequence of
eleven Insert/Remove operations drives `deleteFixup` to read `w.color`
through a nil sibling pointer `w` -- a Go nil-pointer-dereference panic,
modelled as `none`. -/
theorem C2_panic_bug :
    runOps ([Op.ins 1, Op.ins 3, Op.ins 4, Op.ins 2, Op.rem 4, Op.ins 4, Op.ins 5,
      Op.ins 6, Op.rem 3, Op.rem 5, Op.rem 4] : List (Op ℕ)) = none := by
  decide

/-- C3: on every reachable set, Insert returns normally; afterwards `x` is
a member; if `x` was present nothing changed; if `x` was absent the size
grew by exactly 1. -/
theorem C3_insert_contract (s : Set α) (x : α) (hr : Reachable s) :
    ∃ s', s.Insert x = some s' ∧ s'.Contains x = true ∧
      (s.Contains x = true → s' = s) ∧
      (s.Contains x = false → s'.Len = s.Len + 1) := by
  have hi := reachable_inv s hr
  have hsome := Insert_isSome s x hi.2.2
  cases hIns : s.Insert x with
  | none => rw [hIns] at hsome; simp at hsome
  | some s' =>
      obtain ⟨hi', hmem, hnoop, hsz⟩ := Insert_char s x s' hi hIns
      refine ⟨s', rfl, ?_, hnoop, hsz⟩
      show contains x s'.root = true
      exact (contains_iff_mem x s'.root hi'.1).mpr ((hmem x).mpr (Or.inr rfl))

/-- Witness for C3 at the empty set and x = 5. -/
theorem C3_insert_contract_witness :
    ∃ s', (New : Set ℕ).Insert 5 = some s' ∧ s'.Contains 5 = true ∧
      ((New : Set ℕ).Contains 5 = true → s' = New) ∧
      ((New : Set ℕ).Contains 5 = false → s'.Len = (New : Set ℕ).Len + 1) :=
  C3_insert_contract New 5 Reachable.init

/-- C4: on every reachable set, if Remove returns then `x` is absent
afterwards; if `x` was absent nothing changed; if `x` was present the
size shrank by exactly 1. -/
theorem C4_remove_contract (s : Set α) (x : α) (s' : Set α) (hr : Reachable s)
    (h : s.Remove x = some s') :
    s'.Contains x = false ∧ (s.Contains x = false → s' = s) ∧
      (s.Contains x = true → s'.Len = s.Len - 1) := by
  have hi := reachable_inv s hr
  obtain ⟨hi', hmem, hnoop, hsz⟩ := Remove_char s x s' hi h
  refine ⟨?_, hnoop, hsz⟩
  show contains x s'.root = false
  cases hcx : contains x s'.root with
  | false => rfl
  | true =>
      have hx := (contains_iff_mem x s'.root hi'.1).mp hcx
      exact absurd ((hmem x).mp hx).2 (by simp)

/-- Witness for C4: removing 5 from the singleton set reached by
inserting 5 into the empty set. -/
theorem C4_remove_contract_witness :
    Set.Contains (⟨Tree.nil, 0⟩ : Set ℕ) 5 = false ∧
      (Set.Contains (⟨Tree.node 5 Color.black Tree.nil Tree.nil, 1⟩ : Set ℕ) 5 = false →
        (⟨Tree.nil, 0⟩ : Set ℕ) = ⟨Tree.node 5 Color.black Tree.nil Tree.nil, 1⟩) ∧
      (Set.Contains (⟨Tree.node 5 Color.black Tree.nil Tree.nil, 1⟩ : Set ℕ) 5 = true →
        Set.Len (⟨Tree.nil, 0⟩ : Set ℕ) =
          Set.Len (⟨Tree.node 5 Color.black Tree.nil Tree.nil, 1⟩ : Set ℕ) - 1) :=
  C4_remove_contract (⟨Tree.node 5 Color.black Tree.nil Tree.nil, 1⟩ : Set ℕ) 5
    (⟨Tree.nil, 0⟩ : Set ℕ)
    (Reachable.step New _ (Op.ins 5) Reachable.init (by decide))
    (by decide)

/-- C5: iterating any reachable set yields a strictly increasing
sequence. -/
theorem C5_order_invariant (s : Set α) (hr : Reachable s) :
    s.All.Sorted (· < ·) := by
  rw [All_eq_inorder]
  exact (reachable_inv s hr).1

/-- Witness for C5 at a reachable two-element set. -/
theorem C5_order_invariant_witness :
    (Set.All (⟨Tree.node 5 Color.black (Tree.node 3 Color.red Tree.nil Tree.nil)
      Tree.nil, 2⟩ : Set ℕ)).Sorted (· < ·) :=
  C5_order_invariant _
    (Reachable.step (⟨Tree.node 5 Color.black Tree.nil Tree.nil, 1⟩ : Set ℕ)
      (⟨Tree.node 5 Color.black (Tree.node 3 Color.red Tree.nil Tree.nil) Tree.nil, 2⟩ : Set ℕ)
      (Op.ins 3)
      (Reachable.step New (⟨Tree.node 5 Color.black Tree.nil Tree.nil, 1⟩ : Set ℕ)
        (Op.ins 5) Reachable.init (by decide))
      (by decide))

/-- C6: on every reachable set, Contains agrees with membership in the
iteration output. -/
theorem C6_membership_consistency (s : Set α) (hr : Reachable s) (x : α) :
    s.Contains x = true ↔ x ∈ s.All := by
  rw [All_eq_inorder]
  exact contains_iff_mem x s.root (reachable_inv s hr).1

/-- Witness for C6 at a reachable singleton set and x = 5. -/
theorem C6_membership_consistency_witness :
    Set.Contains (⟨Tree.node 5 Color.black Tree.nil Tree.nil, 1⟩ : Set ℕ) 5 = true ↔
      5 ∈ Set.All (⟨Tree.node 5 Color.black Tree.nil Tree.nil, 1⟩ : Set ℕ) :=
  C6_membership_consistency _
    (Reachable.step New _ (Op.ins 5) Reachable.init (by decide)) 5

/-- C7: inserting twice equals inserting once, and removing twice equals
removing once -- the second operation returns the state unchanged. -/
theorem C7_idempotence (s : Set α) (x : α) (hr : Reachable s) :
    (∀ s', s.Insert x = some s' → s'.Insert x = some s') ∧
      (∀ s', s.Remove x = some s' → s'.Remove x = some s') := by
  have hi := reachable_inv s hr
  constructor
  · intro s' h
    obtain ⟨hi', hmem, _, _⟩ := Insert_char s x s' hi h
    exact Insert_found s' x
      ((contains_iff_mem x s'.root hi'.1).mpr ((hmem x).mpr (Or.inr rfl)))
  · intro s' h
    obtain ⟨hi', hmem, _, _⟩ := Remove_char s x s' hi h
    apply Remove_notfound
    cases hcx : contains x s'.root with
    | false => rfl
    | true =>
        have hx := (contains_iff_mem x s'.root hi'.1).mp hcx
        exact absurd ((hmem x).mp hx).2 (by simp)

/-- Witness for C7 at the empty set and x = 5. -/
theorem C7_idempotence_witness :
    (∀ s', (New : Set ℕ).Insert 5 = some s' → s'.Insert 5 = some s') ∧
      (∀ s', (New : Set ℕ).Remove 5 = some s' → s'.Remove 5 = some s') :=
  C7_idempotence New 5 Reachable.init

/-- C8: Min/Max return `(default, false)` on the empty set; on a non-empty
reachable set they return the least / greatest element with `true`. -/
theorem C8_min_max [Inhabited α] (s : Set α) (hr : Reachable s) :
    (s.root = Tree.nil → s.Min = (default, false) ∧ s.Max = (default, false)) ∧
      (s.root ≠ Tree.nil →
        (∃ m, s.Min = (m, true) ∧ m ∈ s.All ∧ ∀ y ∈ s.All, m ≤ y) ∧
        (∃ M, s.Max = (M, true) ∧ M ∈ s.All ∧ ∀ y ∈ s.All, y ≤ M)) := by
  have hi := reachable_inv s hr
  constructor
  · intro hnil
    constructor <;> simp [Set.Min, Set.Max, hnil]
  · intro hne
    rw [All_eq_inorder]
    cases hroot : s.root with
    | nil => exact absurd hroot hne
    | node v c l r =>
        have hs := hi.1
        rw [hroot] at hs
        constructor
        · obtain ⟨m, c2, r2, rest, hmn, hio⟩ :=
            minNode_spec (Tree.node v c l r) (by simp)
          refine ⟨m, ?_, ?_, ?_⟩
          · simp only [Set.Min, hroot, hmn]
          · rw [hio]; simp
          · intro y hy
            rw [hio] at hy
            rw [hio, List.sorted_cons] at hs
            rcases List.mem_cons.mp hy with rfl | hy'
            · exact le_refl y
            · exact le_of_lt (hs.1 y hy')
        · obtain ⟨M, c2, l2, rest, hmn, hio⟩ :=
            maxNode_spec (Tree.node v c l r) (by simp)
          refine ⟨M, ?_, ?_, ?_⟩
          · simp only [Set.Max, hroot, hmn]
          · rw [hio]; simp
          · intro y hy
            rw [hio] at hy
            rw [hio, sorted_append_iff] at hs
            rcases List.mem_append.mp hy with hy' | hy'
            · exact le_of_lt (hs.2.2 y hy' M (List.mem_cons_self M _))
            · rw [List.mem_singleton] at hy'
              subst hy'
              exact le_refl y

/-- Witness for C8 at the empty set (both branches are instantiated; the
non-empty branch holds vacuously there, the empty branch computes). -/
theorem C8_min_max_witness :
    ((New : Set ℕ).root = Tree.nil →
      (New : Set ℕ).Min = (default, false) ∧ (New : Set ℕ).Max = (default, false)) ∧
      ((New : Set ℕ).root ≠ Tree.nil →
        (∃ m, (New : Set ℕ).Min = (m, true) ∧ m ∈ (New : Set ℕ).All ∧
          ∀ y ∈ (New : Set ℕ).All, m ≤ y) ∧
        (∃ M, (New : Set ℕ).Max = (M, true) ∧ M ∈ (New : Set ℕ).All ∧
          ∀ y ∈ (New : Set ℕ).All, y ≤ M)) :=
  C8_min_max New Reachable.init

/-- C9: after any completed run, `Len` equals the length of the iteration
output, and equals the cardinality of the abstract set of values inserted
minus those since removed. -/
theorem C9_size_correct (ops : List (Op α)) (s : Set α) (h : runOps ops = some s) :
    s.Len = (s.All.length : Int) ∧ s.Len = ((modelSet ops).card : Int) := by
  obtain ⟨hi, hmf⟩ := runFrom_model New ops s Inv_New h
  have hnd : (inorder s.root).Nodup := hi.1.nodup
  have hcard := List.toFinset_card_of_nodup hnd
  constructor
  · rw [All_eq_inorder]
    exact hi.2.1
  · show s.size = _
    rw [hi.2.1]
    have : (inorder s.root).toFinset = modelSet ops := by
      rw [hmf]
      simp [modelSet, New, inorder]
    rw [← this, hcard]

/-- Witness for C9 on the run Insert 5, Insert 3, Remove 5. -/
theorem C9_size_correct_witness :
    Set.Len (⟨Tree.node 3 Color.black Tree.nil Tree.nil, 1⟩ : Set ℕ) =
        ((Set.All (⟨Tree.node 3 Color.black Tree.nil Tree.nil, 1⟩ : Set ℕ)).length : Int) ∧
      Set.Len (⟨Tree.node 3 Color.black Tree.nil Tree.nil, 1⟩ : Set ℕ) =
        ((modelSet [Op.ins (5 : ℕ), Op.ins 3, Op.rem 5]).card : Int) :=
  C9_size_correct [Op.ins 5, Op.ins 3, Op.rem 5] _ (by decide)

/-- C10: mutations only affect the membership of their own argument: for
y ≠ x, Contains y is unchanged by Insert x and by Remove x. -/
theorem C10_frame (s : Set α) (x y : α) (hr : Reachable s) (hxy : y ≠ x) :
    (∀ s', s.Insert x = some s' → s'.Contains y = s.Contains y) ∧
      (∀ s', s.Remove x = some s' → s'.Contains y = s.Contains y) := by
  have hi := reachable_inv s hr
  have hbool : ∀ a b : Bool, (a = true ↔ b = true) → a = b := by decide
  constructor
  · intro s' h
    obtain ⟨hi', hmem, _, _⟩ := Insert_char s x s' hi h
    show contains y s'.root = contains y s.root
    apply hbool
    rw [contains_iff_mem y s'.root hi'.1, contains_iff_mem y s.root hi.1, hmem y]
    constructor
    · rintro (hy | rfl)
      · exact hy
      · exact absurd rfl hxy
    · exact Or.inl
  · intro s' h
    obtain ⟨hi', hmem, _, _⟩ := Remove_char s x s' hi h
    show contains y s'.root = contains y s.root
    apply hbool
    rw [contains_iff_mem y s'.root hi'.1, contains_iff_mem y s.root hi.1, hmem y]
    constructor
    · exact fun hy => hy.1
    · exact fun hy => ⟨hy, hxy⟩

/-- Witness for C10 at a reachable singleton set, x = 5, y = 3. -/
theorem C10_frame_witness :
    (∀ s', Set.Insert (⟨Tree.node 5 Color.black Tree.nil Tree.nil, 1⟩ : Set ℕ) 5 = some s' →
      s'.Contains 3 = Set.Contains (⟨Tree.node 5 Color.black Tree.nil Tree.nil, 1⟩ : Set ℕ) 3) ∧
      (∀ s', Set.Remove (⟨Tree.node 5 Color.black Tree.nil Tree.nil, 1⟩ : Set ℕ) 5 = some s' →
        s'.Contains 3 = Set.Contains (⟨Tree.node 5 Color.black Tree.nil Tree.nil, 1⟩ : Set ℕ) 3) :=
  C10_frame (⟨Tree.node 5 Color.black Tree.nil Tree.nil, 1⟩ : Set ℕ) 5 3
    (Reachable.step New _ (Op.ins 5) Reachable.init (by decide)) (by decide)

end GoSet
